import Mathlib

/- Shallow embedding of the factory-content generator of the DevDB editor
extension (class LaravelFactoryGenerator in the repository source).  JS strings
are modelled as `List Char`; `String.prototype.toLowerCase` as a map of the
ASCII `Char.toLower`; the `Record<string, string>` literal as an association
list of its own keys together with the two lowercase properties it inherits
from `Object.prototype`; and `String.prototype.replace` applied to the
regular expression `/return \[([\s\S]*?)\];/` as a leftmost-shortest matcher
together with the ECMAScript GetSubstitution treatment of `$` escape sequences
in the replacement string. -/

/-- A database table column, as introspected: `{ name: string, type: string }`. -/
structure Column where
  name : List Char
  type : List Char

/-- JS `s.toLowerCase()` (ASCII range, which is all the source's needles use). -/
def toLowerStr (s : List Char) : List Char := s.map Char.toLower

/-- `beginsWith pat l` is true when `pat` occurs at the very start of `l`. -/
def beginsWith : List Char → List Char → Bool
  | [], _ => true
  | _ :: _, [] => false
  | a :: as, b :: bs => a == b && beginsWith as bs

/-- JS `hay.includes(needle)`: `needle` occurs contiguously somewhere in `hay`. -/
def includes : List Char → List Char → Bool
  | [], needle => needle.isEmpty
  | c :: t, needle => beginsWith needle (c :: t) || includes t needle

/-- The static type→expression table of `getFakerMethodForColumn`. -/
def typeMap : List (List Char × List Char) :=
  [("varchar".data, "$this->faker->text()".data),
   ("char".data, "$this->faker->text()".data),
   ("text".data, "$this->faker->paragraph()".data),
   ("integer".data, "$this->faker->numberBetween(1, 1000)".data),
   ("bigint".data, "$this->faker->numberBetween(1, 1000)".data),
   ("boolean".data, "$this->faker->boolean()".data),
   ("date".data, "$this->faker->date()".data),
   ("datetime".data, "$this->faker->dateTime()".data),
   ("timestamp".data, "$this->faker->dateTime()".data),
   ("decimal".data, "$this->faker->randomFloat(2, 0, 1000)".data),
   ("float".data, "$this->faker->randomFloat(2, 0, 1000)".data),
   ("json".data, "$this->faker->json()".data),
   ("uuid".data, "$this->faker->uuid()".data)]

/-- Exact own-key association-list lookup over the record literal's own
entries. -/
def lookupStr (key : List Char) : List (List Char × List Char) → Option (List Char)
  | [] => none
  | (k, v) :: rest => if key = k then some v else lookupStr key rest

/-- The JS values `typeMap[type] || 'fake()->text()'` can evaluate to.  The
record literal inherits from `Object.prototype`, and `type` is lowercased, so
besides the own string entries and `undefined` exactly two inherited
properties are reachable (the only all-lowercase keys of `Object.prototype`):
`constructor` (the `Object` constructor function) and `__proto__` (the
prototype object itself). -/
inductive JsVal where
  | str : List Char → JsVal
  | objectCtor : JsVal
  | objectProto : JsVal
  | undef : JsVal
deriving DecidableEq

/-- JS truthiness of the reachable values: `undefined` and the empty string
are falsy; objects, functions and non-empty strings are truthy. -/
def jsTruthy : JsVal → Bool
  | .str s => !s.isEmpty
  | .objectCtor => true
  | .objectProto => true
  | .undef => false

/-- Whether the value is a JS string. -/
def jsIsString : JsVal → Bool
  | .str _ => true
  | _ => false

/-- ToString coercion performed by the template literal that builds a line:
a string is itself; the inherited `Object` constructor stringifies to the
NativeFunction form (as produced by V8, JavaScriptCore and SpiderMonkey
alike); the prototype object stringifies via `Object.prototype.toString`;
`undefined` would print as `undefined`. -/
def jsToString : JsVal → List Char
  | .str s => s
  | .objectCtor => "function Object() \x7b [native code] \x7d".data
  | .objectProto => "[object Object]".data
  | .undef => "undefined".data

/-- JS `a || b`: `a` when truthy, else `b`. -/
def jsOr (a b : JsVal) : JsVal := if jsTruthy a then a else b

/-- `typeMap[type]`: own keys first, then the two reachable properties
inherited from `Object.prototype`, else `undefined`. -/
def typeMapGet (key : List Char) : JsVal :=
  match lookupStr key typeMap with
  | some v => JsVal.str v
  | none =>
    if key = "constructor".data then JsVal.objectCtor
    else if key = "__proto__".data then JsVal.objectProto
    else JsVal.undef

/-- `getFakerMethodForColumn` from the source: name heuristics first
(email, name, phone, address, in that order, on the lowercased name), then
`typeMap[type] || 'fake()->text()'` on the lowercased type, with the record
lookup including the prototype chain. -/
def getFakerMethodForColumn (column : Column) : JsVal :=
  if includes (toLowerStr column.name) "email".data then JsVal.str "fake()->safeEmail()".data
  else if includes (toLowerStr column.name) "name".data then JsVal.str "fake()->name()".data
  else if includes (toLowerStr column.name) "phone".data then
    JsVal.str "fake()->phoneNumber()".data
  else if includes (toLowerStr column.name) "address".data then
    JsVal.str "fake()->address()".data
  else jsOr (typeMapGet (toLowerStr column.type)) (JsVal.str "fake()->text()".data)

/-- The fourteen distinct fixed literal generator expressions appearing in the
source (heuristics, table values and fallback). -/
def exprList : List (List Char) :=
  ["fake()->safeEmail()".data,
   "fake()->name()".data,
   "fake()->phoneNumber()".data,
   "fake()->address()".data,
   "fake()->text()".data,
   "$this->faker->text()".data,
   "$this->faker->paragraph()".data,
   "$this->faker->numberBetween(1, 1000)".data,
   "$this->faker->boolean()".data,
   "$this->faker->date()".data,
   "$this->faker->dateTime()".data,
   "$this->faker->randomFloat(2, 0, 1000)".data,
   "$this->faker->json()".data,
   "$this->faker->uuid()".data]

/-- Every text an interpolated classifier result can contribute to a line:
the fixed expressions plus the coercions of the two inherited prototype
values. -/
def renderedExprList : List (List Char) :=
  exprList ++
    ["function Object() \x7b [native code] \x7d".data,
     "[object Object]".data]

/-- The arrow function inside `generateColumnDefinitions`:
`` `            '${column.name}' => ${fakerMethod},` ``, the interpolation
coercing the classifier's value to text. -/
def lineFor (column : Column) : List Char :=
  "            '".data ++ column.name ++ "' => ".data ++
    jsToString (getFakerMethodForColumn column) ++ ",".data

/-- JS `Array.prototype.join('\n')`. -/
def joinNl : List (List Char) → List Char
  | [] => []
  | [x] => x
  | x :: y :: ys => x ++ '\n' :: joinNl (y :: ys)

/-- `generateColumnDefinitions` from the source: map each column to its line
and join with newlines. -/
def generateColumnDefinitions (columns : List Column) : List Char :=
  joinNl (columns.map lineFor)

/-- The literal head of the regex `/return \[([\s\S]*?)\];/`. -/
def returnPat : List Char := "return [".data

/-- The lazy tail `([\s\S]*?)\];` of the regex, starting right after
`return [`: capture the shortest body up to the first `];`, returning the
captured body and the text after the `];`. -/
def findCloseBracket : List Char → Option (List Char × List Char)
  | [] => none
  | c :: rest =>
    if c = ']' ∧ rest.head? = some ';' then some ([], rest.tail)
    else
      match findCloseBracket rest with
      | some (body, after) => some (c :: body, after)
      | none => none

/-- The whole regex `/return \[([\s\S]*?)\];/` as a leftmost matcher: scan for
the first position where `return [` occurs and a `];` follows, producing the
text before the match, the captured body, and the text after the match. -/
def findMatch : List Char → Option (List Char × List Char × List Char)
  | [] => none
  | c :: rest =>
    if beginsWith returnPat (c :: rest) then
      match findCloseBracket (List.drop 7 rest) with
      | some (body, after) => some ([], body, after)
      | none => (findMatch rest).map (fun p => (c :: p.1, p.2.1, p.2.2))
    else (findMatch rest).map (fun p => (c :: p.1, p.2.1, p.2.2))

/-- ECMAScript GetSubstitution for a string replacement with one capture
group: expand `$$`, `$&`, a `$` followed by a backtick (the part of the
subject before the match), `$'` (the part after the match) and capture
references `$1`/`$01` (a two-digit reference larger than the group count
falls back to its first digit; `$0`, `$00` and references above the group
count stay literal) inside the replacement template; every other character is
copied verbatim.  `matched` is the whole matched span, `pre`/`after` the
subject text around it, `cap` the single capture. -/
def getSubstitution (matched pre after cap : List Char) : List Char → List Char
  | [] => []
  | [c] => [c]
  | [c, d] =>
    if c = '$' then
      if d = '$' then ['$']
      else if d = '&' then matched
      else if d = Char.ofNat 96 then pre
      else if d = Char.ofNat 39 then after
      else if d = '1' then cap
      else [c, d]
    else [c, d]
  | c :: d :: e :: rest3 =>
    if c = '$' then
      if d = '$' then '$' :: getSubstitution matched pre after cap (e :: rest3)
      else if d = '&' then matched ++ getSubstitution matched pre after cap (e :: rest3)
      else if d = Char.ofNat 96 then pre ++ getSubstitution matched pre after cap (e :: rest3)
      else if d = Char.ofNat 39 then after ++ getSubstitution matched pre after cap (e :: rest3)
      else if d.isDigit then
        if e.isDigit then
          if d = '0' ∧ e = '1' then cap ++ getSubstitution matched pre after cap rest3
          else if d = '1' then cap ++ e :: getSubstitution matched pre after cap rest3
          else '$' :: d :: e :: getSubstitution matched pre after cap rest3
        else if d = '1' then cap ++ getSubstitution matched pre after cap (e :: rest3)
        else '$' :: d :: getSubstitution matched pre after cap (e :: rest3)
      else '$' :: getSubstitution matched pre after cap (d :: e :: rest3)
    else c :: getSubstitution matched pre after cap (d :: e :: rest3)

/-- The pure core of `updateFactoryContent`: the call
`content.replace(regex, template)` where the regex is
`/return \[([\s\S]*?)\];/` and the template is the text `return [`, a newline,
the definitions block, a newline, then 8 spaces and `];`.  On no match the
content is returned unchanged; on a match the matched span is replaced by the
template, with `$` escapes in the template expanded per GetSubstitution. -/
def updateFactoryContent (content definitions : List Char) : List Char :=
  match findMatch content with
  | none => content
  | some (pre, body, after) =>
    pre ++
      getSubstitution (returnPat ++ body ++ "];".data) pre after body
        ("return [\n".data ++ definitions ++ "\n        ];".data) ++
      after

/-- Split a text at newline characters (`"a\nb"` has lines `a` and `b`). -/
def splitNl : List Char → List (List Char)
  | [] => [[]]
  | c :: rest =>
    if c = '\n' then [] :: splitNl rest
    else
      match splitNl rest with
      | [] => [[c]]
      | x :: xs => (c :: x) :: xs

/-- The lines of a text: none for the empty text, otherwise the newline split. -/
def linesOf (l : List Char) : List (List Char) :=
  if l = [] then [] else splitNl l

/-- A character that keeps a preceding `$` inert in a replacement template. -/
def safeFollow (d : Char) : Bool :=
  if d = '$' ∨ d = '&' ∨ d = Char.ofNat 96 ∨ d = Char.ofNat 39 ∨ d.isDigit then false
  else true

/-- A definitions block is dollar-safe when every `$` in it is followed
(inside the block) by an inert character or ends the block; splicing such a
block is a literal substitution. -/
def dollarSafe : List Char → Bool
  | [] => true
  | c :: rest =>
    (if c = '$' then
      (match rest with
       | [] => true
       | d :: _ => safeFollow d)
     else true) && dollarSafe rest

/-- One line of the spec §6 output grammar, read literally: an opening quote,
any identifier text, the quote-arrow separator, one of the classifier
expressions, and a trailing comma — with no provision for indentation. -/
def specLine (line : List Char) : Bool :=
  match line with
  | [] => false
  | q :: rest =>
    (q == Char.ofNat 39) &&
      exprList.any (fun e => beginsWith (("' => ".data ++ e ++ ",".data).reverse) rest.reverse)

/-- Split off the text up to the first newline, and the text after it. -/
def takeLine : List Char → Option (List Char × List Char)
  | [] => none
  | c :: rest =>
    if c = '\n' then some ([], rest)
    else (takeLine rest).map (fun p => (c :: p.1, p.2))

/-- Fuelled matcher for the repetition `(line newline)*`. -/
def specGrammarFuel : Nat → List Char → Bool
  | _, [] => true
  | 0, _ :: _ => false
  | fuel + 1, c :: rest =>
    match takeLine (c :: rest) with
    | none => false
    | some (line, rest2) => specLine line && specGrammarFuel fuel rest2

/-- The spec §6 output-contract grammar, one quoted-identifier arrow-expression
line plus newline per repetition, as a decidable matcher. -/
def specGrammar (block : List Char) : Bool := specGrammarFuel (block.length + 1) block

lemma beginsWith_append_self (n l : List Char) : beginsWith n (n ++ l) = true := by
  induction n with
  | nil => rfl
  | cons a as ih => simp [beginsWith, ih]

lemma beginsWith_of_le (n x y : List Char) (h : beginsWith n (x ++ y) = true)
    (hlen : n.length ≤ x.length) : beginsWith n x = true := by
  induction n generalizing x with
  | nil => rfl
  | cons a as ih =>
    cases x with
    | nil => simp at hlen
    | cons b bs =>
      simp only [List.cons_append, beginsWith, Bool.and_eq_true, beq_iff_eq] at h ⊢
      exact ⟨h.1, ih bs h.2 (by simpa using hlen)⟩

lemma beginsWith_eq_append (n l : List Char) (h : beginsWith n l = true) :
    l = n ++ List.drop n.length l := by
  induction n generalizing l with
  | nil => simp
  | cons a as ih =>
    cases l with
    | nil => simp [beginsWith] at h
    | cons b bs =>
      simp only [beginsWith, Bool.and_eq_true, beq_iff_eq] at h
      simpa [h.1] using ih bs h.2

lemma includes_of_beginsWith (n l : List Char) (h : beginsWith n l = true) :
    includes l n = true := by
  cases l with
  | nil =>
    cases n with
    | nil => rfl
    | cons a as => simp [beginsWith] at h
  | cons c t => simp [includes, h]

lemma includes_cons_of (c : Char) (t n : List Char) (h : includes t n = true) :
    includes (c :: t) n = true := by
  simp [includes, h]

lemma includes_of_cons_eq_false (c : Char) (t n : List Char)
    (h : includes (c :: t) n = false) : includes t n = false := by
  by_contra hne
  simp only [Bool.not_eq_false] at hne
  simp [includes_cons_of c t n hne] at h

lemma lookupStr_mem_values (l : List (List Char × List Char)) (k v : List Char)
    (h : lookupStr k l = some v) : v ∈ l.map Prod.snd := by
  induction l with
  | nil => simp [lookupStr] at h
  | cons p rest ih =>
    obtain ⟨k', v'⟩ := p
    by_cases hk : k = k'
    · simp [lookupStr, hk] at h
      simp [h]
    · simp only [lookupStr, if_neg hk] at h
      simp [ih h]

lemma lookupStr_eq_none (l : List (List Char × List Char)) (k : List Char)
    (h : ∀ p ∈ l, k ≠ p.1) : lookupStr k l = none := by
  induction l with
  | nil => rfl
  | cons p rest ih =>
    obtain ⟨k', v'⟩ := p
    have hk : k ≠ k' := h (k', v') (by simp)
    simp only [lookupStr, if_neg hk]
    exact ih fun q hq => h q (by simp [hq])

lemma typeMap_values_mem : ∀ v ∈ typeMap.map Prod.snd, v ∈ exprList := by
  decide

lemma typeMap_values_isEmpty (v : List Char) (h : v ∈ typeMap.map Prod.snd) :
    v.isEmpty = false := by
  cases v with
  | nil => exact absurd h (by decide)
  | cons c t => rfl

lemma fakerMethod_classify (column : Column) :
    getFakerMethodForColumn column ∈ exprList.map JsVal.str
    ∨ getFakerMethodForColumn column = JsVal.objectCtor
    ∨ getFakerMethodForColumn column = JsVal.objectProto := by
  unfold getFakerMethodForColumn
  split_ifs with h1 h2 h3 h4
  · left; simp [exprList]
  · left; simp [exprList]
  · left; simp [exprList]
  · left; simp [exprList]
  · cases hv : lookupStr (toLowerStr column.type) typeMap with
    | some v =>
      have hm := lookupStr_mem_values _ _ _ hv
      left
      simp only [typeMapGet, hv, jsOr, jsTruthy, typeMap_values_isEmpty v hm,
        Bool.not_false, if_true]
      exact List.mem_map_of_mem JsVal.str (typeMap_values_mem v hm)
    | none =>
      by_cases hc : toLowerStr column.type = "constructor".data
      · right; left
        simp only [typeMapGet, hv, if_pos hc]
        rfl
      · by_cases hpr : toLowerStr column.type = "__proto__".data
        · right; right
          simp only [typeMapGet, hv, if_neg hc, if_pos hpr]
          rfl
        · left
          simp only [typeMapGet, hv, if_neg hc, if_neg hpr]
          simp [jsOr, jsTruthy, exprList]

lemma fakerMethod_str_of_ne (column : Column)
    (hc : toLowerStr column.type ≠ "constructor".data)
    (hpr : toLowerStr column.type ≠ "__proto__".data) :
    getFakerMethodForColumn column ∈ exprList.map JsVal.str := by
  unfold getFakerMethodForColumn
  split_ifs with h1 h2 h3 h4
  · simp [exprList]
  · simp [exprList]
  · simp [exprList]
  · simp [exprList]
  · cases hv : lookupStr (toLowerStr column.type) typeMap with
    | some v =>
      have hm := lookupStr_mem_values _ _ _ hv
      simp only [typeMapGet, hv, jsOr, jsTruthy, typeMap_values_isEmpty v hm,
        Bool.not_false, if_true]
      exact List.mem_map_of_mem JsVal.str (typeMap_values_mem v hm)
    | none =>
      simp only [typeMapGet, hv, if_neg hc, if_neg hpr]
      simp [jsOr, jsTruthy, exprList]

lemma fakerMethod_rendered_mem (column : Column) :
    jsToString (getFakerMethodForColumn column) ∈ renderedExprList := by
  rcases fakerMethod_classify column with h | h | h
  · obtain ⟨s, hs, heq⟩ := List.mem_map.mp h
    rw [← heq]
    simp only [jsToString, renderedExprList]
    exact List.mem_append_left _ hs
  · rw [h]; decide
  · rw [h]; decide

lemma fakerMethod_no_nl (column : Column) :
    '\n' ∉ jsToString (getFakerMethodForColumn column) := by
  have hm := fakerMethod_rendered_mem column
  have hall : ∀ e ∈ renderedExprList, '\n' ∉ e := by decide
  exact hall _ hm

lemma lineFor_no_nl (column : Column) (h : '\n' ∉ column.name) : '\n' ∉ lineFor column := by
  intro hc
  simp only [lineFor, List.mem_append] at hc
  rcases hc with (((h1 | h2) | h3) | h4) | h5
  · exact absurd h1 (by decide)
  · exact h h2
  · exact absurd h3 (by decide)
  · exact fakerMethod_no_nl column h4
  · exact absurd h5 (by decide)

lemma lineFor_ne_nil (column : Column) : lineFor column ≠ [] := by
  simp [lineFor]

lemma joinNl_cons_ne_nil (x : List Char) (xs : List (List Char)) (hx : x ≠ []) :
    joinNl (x :: xs) ≠ [] := by
  cases xs with
  | nil => simpa [joinNl] using hx
  | cons y ys => simp [joinNl]

lemma splitNl_ne_nil (l : List Char) : splitNl l ≠ [] := by
  cases l with
  | nil => simp [splitNl]
  | cons c rest =>
    by_cases hc : c = '\n'
    · simp [splitNl, hc]
    · simp only [splitNl, if_neg hc]
      cases splitNl rest <;> simp

lemma splitNl_of_no_nl (l : List Char) (h : '\n' ∉ l) : splitNl l = [l] := by
  induction l with
  | nil => rfl
  | cons c rest ih =>
    have hc : c ≠ '\n' := fun hcn => h (by simp [hcn])
    have hr : '\n' ∉ rest := fun hm => h (by simp [hm])
    simp only [splitNl, if_neg hc, ih hr]

lemma splitNl_append_nl (x rest : List Char) (hx : '\n' ∉ x) :
    splitNl (x ++ '\n' :: rest) = x :: splitNl rest := by
  induction x with
  | nil => simp [splitNl]
  | cons c x' ih =>
    have hc : c ≠ '\n' := fun hcn => hx (by simp [hcn])
    have hx' : '\n' ∉ x' := fun hm => hx (by simp [hm])
    simp only [List.cons_append, splitNl, if_neg hc, List.append_eq, ih hx']

lemma splitNl_joinNl (ls : List (List Char)) (hne : ls ≠ [])
    (hnl : ∀ l ∈ ls, '\n' ∉ l) : splitNl (joinNl ls) = ls := by
  induction ls with
  | nil => exact absurd rfl hne
  | cons x xs ih =>
    cases xs with
    | nil => simpa [joinNl] using splitNl_of_no_nl x (hnl x (by simp))
    | cons y ys =>
      have hx : '\n' ∉ x := hnl x (by simp)
      have := ih (by simp) (fun l hl => hnl l (by simp [hl]))
      simp only [joinNl, splitNl_append_nl x _ hx, this]

lemma linesOf_render (columns : List Column) (hnl : ∀ c ∈ columns, '\n' ∉ c.name) :
    linesOf (generateColumnDefinitions columns) = columns.map lineFor := by
  cases columns with
  | nil => rfl
  | cons c cs =>
    have hne : joinNl (List.map lineFor (c :: cs)) ≠ [] := by
      simpa [List.map] using joinNl_cons_ne_nil (lineFor c) _ (lineFor_ne_nil c)
    have hlines : ∀ l ∈ List.map lineFor (c :: cs), '\n' ∉ l := by
      intro l hl
      obtain ⟨col, hcol, rfl⟩ := List.mem_map.mp hl
      exact lineFor_no_nl col (hnl col hcol)
    simp only [generateColumnDefinitions, linesOf, if_neg hne]
    exact splitNl_joinNl _ (by simp) hlines

lemma findCloseBracket_sound (l b a : List Char) (h : findCloseBracket l = some (b, a)) :
    l = b ++ ']' :: ';' :: a := by
  induction l generalizing b a with
  | nil => simp [findCloseBracket] at h
  | cons c rest ih =>
    by_cases hc : c = ']' ∧ rest.head? = some ';'
    · simp only [findCloseBracket, if_pos hc, Option.some.injEq, Prod.mk.injEq] at h
      obtain ⟨hb, ha⟩ := h
      obtain ⟨hc1, hc2⟩ := hc
      cases rest with
      | nil => simp at hc2
      | cons r rt =>
        simp only [List.head?] at hc2
        simp only [List.tail] at ha
        subst hb hc1 ha
        simp [Option.some.injEq] at hc2
        simp [hc2]
    · simp only [findCloseBracket, if_neg hc] at h
      rcases hfc : findCloseBracket rest with _ | ⟨b', a'⟩
      · rw [hfc] at h; simp at h
      · rw [hfc] at h
        simp only [Option.some.injEq, Prod.mk.injEq] at h
        obtain ⟨hb, ha⟩ := h
        subst hb ha
        simpa using ih b' a' hfc

lemma findMatch_cons (c : Char) (rest : List Char) :
    findMatch (c :: rest) =
      if beginsWith returnPat (c :: rest) then
        (match findCloseBracket (List.drop 7 rest) with
         | some (body, after) => some ([], body, after)
         | none => (findMatch rest).map (fun p => (c :: p.1, p.2.1, p.2.2)))
      else (findMatch rest).map (fun p => (c :: p.1, p.2.1, p.2.2)) := rfl

lemma findMatch_sound (l p b a : List Char) (h : findMatch l = some (p, b, a)) :
    l = p ++ returnPat ++ b ++ ']' :: ';' :: a := by
  induction l generalizing p b a with
  | nil => simp [findMatch] at h
  | cons c rest ih =>
    rw [findMatch_cons] at h
    by_cases hbw : beginsWith returnPat (c :: rest) = true
    · rw [if_pos hbw] at h
      rcases hfc : findCloseBracket (List.drop 7 rest) with _ | ⟨b', a'⟩
      · rw [hfc] at h
        simp only [Option.map_eq_some'] at h
        obtain ⟨⟨p', b'', a''⟩, hm, hval⟩ := h
        simp only [Prod.mk.injEq] at hval
        obtain ⟨hp, hb, ha⟩ := hval
        subst hp hb ha
        simpa [List.append_assoc] using congrArg (c :: ·) (ih _ _ _ hm)
      · rw [hfc] at h
        simp only [Option.some.injEq, Prod.mk.injEq] at h
        obtain ⟨hp, hb, ha⟩ := h
        subst hp hb ha
        have heq := beginsWith_eq_append returnPat (c :: rest) hbw
        have hdrop : List.drop returnPat.length (c :: rest) = List.drop 7 rest := rfl
        rw [hdrop] at heq
        rw [findCloseBracket_sound _ _ _ hfc] at heq
        simpa [List.append_assoc] using heq
    · rw [if_neg hbw] at h
      simp only [Option.map_eq_some'] at h
      obtain ⟨⟨p', b'', a''⟩, hm, hval⟩ := h
      simp only [Prod.mk.injEq] at hval
      obtain ⟨hp, hb, ha⟩ := hval
      subst hp hb ha
      simpa [List.append_assoc] using congrArg (c :: ·) (ih _ _ _ hm)

lemma findCloseBracket_complete (b a : List Char)
    (hb : includes (b ++ "]".data) "];".data = false) :
    findCloseBracket (b ++ ']' :: ';' :: a) = some (b, a) := by
  induction b with
  | nil => simp [findCloseBracket]
  | cons c b' ih =>
    have hcond : ¬(c = ']' ∧ (b' ++ ']' :: ';' :: a).head? = some ';') := by
      rintro ⟨hc1, hc2⟩
      cases b' with
      | nil => simp at hc2
      | cons d b'' =>
        simp only [List.cons_append, List.head?, Option.some.injEq] at hc2
        have hbw : beginsWith "];".data ((c :: d :: b'') ++ "]".data) = true := by
          simp [beginsWith, hc1, hc2]
        have := includes_of_beginsWith _ _ hbw
        rw [this] at hb
        simp at hb
    have hb' : includes (b' ++ "]".data) "];".data = false := by
      have : includes ((c :: b') ++ "]".data) "];".data = false := hb
      rw [List.cons_append] at this
      exact includes_of_cons_eq_false _ _ _ this
    simp only [List.cons_append, findCloseBracket, List.append_eq, if_neg hcond, ih hb']

lemma findMatch_complete (p b a : List Char)
    (hp : includes (p ++ "return ".data) returnPat = false)
    (hb : includes (b ++ "]".data) "];".data = false) :
    findMatch (p ++ returnPat ++ b ++ ']' :: ';' :: a) = some (p, b, a) := by
  induction p with
  | nil =>
    rw [show ([] : List Char) ++ returnPat ++ b ++ ']' :: ';' :: a =
      'r' :: ("eturn [".data ++ (b ++ ']' :: ';' :: a)) by simp [returnPat, List.append_assoc]]
    rw [findMatch_cons]
    have hbw : beginsWith returnPat ('r' :: ("eturn [".data ++ (b ++ ']' :: ';' :: a))) = true :=
      beginsWith_append_self returnPat (b ++ ']' :: ';' :: a)
    rw [if_pos hbw]
    have hdrop : List.drop 7 ("eturn [".data ++ (b ++ ']' :: ';' :: a)) = b ++ ']' :: ';' :: a := rfl
    rw [hdrop, findCloseBracket_complete b a hb]
  | cons c p' ih =>
    have hshape : (c :: p') ++ returnPat ++ b ++ ']' :: ';' :: a =
        c :: (p' ++ returnPat ++ b ++ ']' :: ';' :: a) := by simp
    rw [hshape, findMatch_cons]
    have hbw : ¬ beginsWith returnPat (c :: (p' ++ returnPat ++ b ++ ']' :: ';' :: a)) = true := by
      intro hcon
      have hsplit : c :: (p' ++ returnPat ++ b ++ ']' :: ';' :: a) =
          ((c :: p') ++ "return ".data) ++ ("[".data ++ b ++ ']' :: ';' :: a) := by
        simp [returnPat, List.append_assoc]
      rw [hsplit] at hcon
      have hlen : returnPat.length ≤ ((c :: p') ++ "return ".data).length := by
        simp [returnPat]
        try omega
      have hinc := includes_of_beginsWith _ _ (beginsWith_of_le _ _ _ hcon hlen)
      rw [hp] at hinc
      exact Bool.false_ne_true hinc
    rw [if_neg hbw]
    have hp' : includes (p' ++ "return ".data) returnPat = false := by
      have : includes ((c :: p') ++ "return ".data) returnPat = false := hp
      rw [List.cons_append] at this
      exact includes_of_cons_eq_false _ _ _ this
    rw [ih hp']
    rfl

lemma safeFollow_spec (d : Char) (h : safeFollow d = true) :
    d ≠ '$' ∧ d ≠ '&' ∧ d ≠ Char.ofNat 96 ∧ d ≠ Char.ofNat 39 ∧ d.isDigit = false := by
  unfold safeFollow at h
  split_ifs at h with hcond
  simp only [not_or] at hcond
  exact ⟨hcond.1, hcond.2.1, hcond.2.2.1, hcond.2.2.2.1, by simpa using hcond.2.2.2.2⟩

lemma dollarSafe_cons (c : Char) (rest : List Char) (h : dollarSafe (c :: rest) = true) :
    dollarSafe rest = true := by
  simp only [dollarSafe, Bool.and_eq_true] at h
  exact h.2

lemma dollarSafe_head (d : Char) (rest' : List Char)
    (h : dollarSafe ('$' :: d :: rest') = true) : safeFollow d = true := by
  simp only [dollarSafe, Bool.and_eq_true, if_pos rfl] at h
  exact h.1

lemma getSubstitution_of_dollarSafe (m p a cap t : List Char) (h : dollarSafe t = true) :
    getSubstitution m p a cap t = t := by
  induction t with
  | nil => rfl
  | cons c t' ih =>
    cases t' with
    | nil => rfl
    | cons d t'' =>
      by_cases hc : c = '$'
      · subst hc
        have hsafe := safeFollow_spec d (dollarSafe_head d t'' h)
        obtain ⟨h1, h2, h3, h4, h5⟩ := hsafe
        have hrec : getSubstitution m p a cap (d :: t'') = d :: t'' :=
          ih (dollarSafe_cons _ _ h)
        cases t'' with
        | nil =>
          have hd1 : d ≠ '1' := by
            intro hd
            subst hd
            simp at h5
          simp only [getSubstitution, if_pos rfl, if_neg h1, if_neg h2, if_neg h3, if_neg h4,
            if_neg hd1, ite_self]
        | cons e t''' =>
          simp only [getSubstitution, if_pos rfl, if_neg h1, if_neg h2, if_neg h3, if_neg h4, h5,
            Bool.false_eq_true, if_false, hrec, ite_self]
      · cases t'' with
        | nil => simp only [getSubstitution, if_neg hc]
        | cons e t''' =>
          have hrec : getSubstitution m p a cap (d :: e :: t''') = d :: e :: t''' :=
            ih (dollarSafe_cons _ _ h)
          simp only [getSubstitution, if_neg hc, hrec]

lemma dollarSafe_append_nodollar (x y : List Char) (hx : '$' ∉ x)
    (hy : dollarSafe y = true) : dollarSafe (x ++ y) = true := by
  induction x with
  | nil => simpa using hy
  | cons c x' ih =>
    have hc : c ≠ '$' := fun hcc => hx (by simp [hcc])
    have hx' : '$' ∉ x' := fun hm => hx (by simp [hm])
    simp only [List.cons_append, dollarSafe, if_neg hc, Bool.true_and]
    exact ih hx'

lemma dollarSafe_cons2 (d : Char) (rest : List Char) :
    dollarSafe ('$' :: d :: rest) = (safeFollow d && dollarSafe (d :: rest)) := by
  simp [dollarSafe]

lemma dollarSafe_cons_ndollar (c : Char) (rest : List Char) (hc : c ≠ '$') :
    dollarSafe (c :: rest) = dollarSafe rest := by
  simp [dollarSafe, hc]

lemma dollarSafe_append_tail (defs tail : List Char) (hd : dollarSafe defs = true)
    (ht : dollarSafe tail = true)
    (hth : ∀ d, tail.head? = some d → safeFollow d = true) :
    dollarSafe (defs ++ tail) = true := by
  induction defs with
  | nil => simpa using ht
  | cons c defs' ih =>
    have hd' : dollarSafe defs' = true := dollarSafe_cons _ _ hd
    have htail : dollarSafe (defs' ++ tail) = true := ih hd'
    by_cases hc : c = '$'
    · subst hc
      cases hdt : defs' ++ tail with
      | nil =>
        rw [List.cons_append, hdt]
        decide
      | cons d rest2 =>
        have hsf : safeFollow d = true := by
          cases defs' with
          | nil =>
            simp only [List.nil_append] at hdt
            exact hth d (by simp [hdt])
          | cons d' defs'' =>
            have hhd : d' = d := by simpa using congrArg List.head? hdt
            subst hhd
            exact dollarSafe_head d' defs'' hd
        rw [List.cons_append, hdt, dollarSafe_cons2, ← hdt]
        simp [hsf, htail]
    · rw [List.cons_append, dollarSafe_cons_ndollar c _ hc]
      exact htail

lemma template_dollarSafe (defs : List Char) (hd : dollarSafe defs = true) :
    dollarSafe ("return [\n".data ++ defs ++ "\n        ];".data) = true := by
  have htail : dollarSafe ("\n        ];".data) = true := by decide
  have hth : ∀ d, ("\n        ];".data).head? = some d → safeFollow d = true := by decide
  have hmid : dollarSafe (defs ++ "\n        ];".data) = true :=
    dollarSafe_append_tail _ _ hd htail hth
  have hpre : '$' ∉ "return [\n".data := by decide
  have := dollarSafe_append_nodollar _ _ hpre hmid
  simpa [List.append_assoc] using this

lemma splice_eq (p b a defs : List Char)
    (hp : includes (p ++ "return ".data) returnPat = false)
    (hb : includes (b ++ "]".data) "];".data = false)
    (hd : dollarSafe defs = true) :
    updateFactoryContent (p ++ returnPat ++ b ++ ']' :: ';' :: a) defs =
      p ++ "return [\n".data ++ defs ++ "\n        ];".data ++ a := by
  unfold updateFactoryContent
  rw [findMatch_complete p b a hp hb]
  dsimp only
  rw [getSubstitution_of_dollarSafe _ _ _ _ _ (template_dollarSafe defs hd)]
  simp [List.append_assoc]

/-- C1: for every column, the classifier applies the name heuristics
first-match-wins in the fixed order email, name, phone, address on the
lowercased column name, each matched rule returning its fixed expression
regardless of the declared type (the type is arbitrary in every conjunct). -/
theorem claim_C1 (column : Column) :
    (includes (toLowerStr column.name) "email".data = true →
      getFakerMethodForColumn column = JsVal.str "fake()->safeEmail()".data)
    ∧ (includes (toLowerStr column.name) "email".data = false →
       includes (toLowerStr column.name) "name".data = true →
      getFakerMethodForColumn column = JsVal.str "fake()->name()".data)
    ∧ (includes (toLowerStr column.name) "email".data = false →
       includes (toLowerStr column.name) "name".data = false →
       includes (toLowerStr column.name) "phone".data = true →
      getFakerMethodForColumn column = JsVal.str "fake()->phoneNumber()".data)
    ∧ (includes (toLowerStr column.name) "email".data = false →
       includes (toLowerStr column.name) "name".data = false →
       includes (toLowerStr column.name) "phone".data = false →
       includes (toLowerStr column.name) "address".data = true →
      getFakerMethodForColumn column = JsVal.str "fake()->address()".data) := by
  refine ⟨fun h1 => ?_, fun h1 h2 => ?_, fun h1 h2 h3 => ?_, fun h1 h2 h3 h4 => ?_⟩ <;>
    simp [getFakerMethodForColumn, *]

/-- C1 witness: an uppercase phone-named integer column takes the third rule. -/
theorem claim_C1_witness :
    getFakerMethodForColumn ⟨"PHONE_num".data, "integer".data⟩ =
      JsVal.str "fake()->phoneNumber()".data :=
  (claim_C1 ⟨"PHONE_num".data, "integer".data⟩).2.2.1 (by decide) (by decide) (by decide)

/-- C2 counterexample: the lowercased type `constructor` is absent from the
table, yet the program does not fall back to the generic expression — the
truthy `Object` constructor inherited from the record literal's prototype is
returned instead (and `__proto__` likewise yields the prototype object). -/
theorem claim_C2_counterexample :
    lookupStr (toLowerStr "constructor".data) typeMap = none
    ∧ getFakerMethodForColumn ⟨"col".data, "constructor".data⟩ = JsVal.objectCtor
    ∧ getFakerMethodForColumn ⟨"col".data, "constructor".data⟩ ≠
        JsVal.str "fake()->text()".data
    ∧ getFakerMethodForColumn ⟨"col".data, "__proto__".data⟩ = JsVal.objectProto := by
  decide

/-- C2 (amended): for every column not matched by any name heuristic, the
classifier output depends only on the lowercased type; a table hit returns
exactly that entry (the table having precisely the thirteen listed entries);
a lowercased type absent from the table yields the generic text-generator
expression unless it is `constructor` or `__proto__`, where the truthy value
inherited from `Object.prototype` is returned instead; and both concrete
scenarios hold. -/
theorem claim_C2 (column : Column)
    (he : includes (toLowerStr column.name) "email".data = false)
    (hn : includes (toLowerStr column.name) "name".data = false)
    (hp : includes (toLowerStr column.name) "phone".data = false)
    (ha : includes (toLowerStr column.name) "address".data = false) :
    (∀ v, lookupStr (toLowerStr column.type) typeMap = some v →
        getFakerMethodForColumn column = JsVal.str v)
    ∧ (lookupStr (toLowerStr column.type) typeMap = none →
       toLowerStr column.type ≠ "constructor".data →
       toLowerStr column.type ≠ "__proto__".data →
        getFakerMethodForColumn column = JsVal.str "fake()->text()".data)
    ∧ (∀ column' : Column,
        includes (toLowerStr column'.name) "email".data = false →
        includes (toLowerStr column'.name) "name".data = false →
        includes (toLowerStr column'.name) "phone".data = false →
        includes (toLowerStr column'.name) "address".data = false →
        toLowerStr column'.type = toLowerStr column.type →
        getFakerMethodForColumn column' = getFakerMethodForColumn column)
    ∧ lookupStr "varchar".data typeMap = some "$this->faker->text()".data
    ∧ lookupStr "char".data typeMap = some "$this->faker->text()".data
    ∧ lookupStr "text".data typeMap = some "$this->faker->paragraph()".data
    ∧ lookupStr "integer".data typeMap = some "$this->faker->numberBetween(1, 1000)".data
    ∧ lookupStr "bigint".data typeMap = some "$this->faker->numberBetween(1, 1000)".data
    ∧ lookupStr "boolean".data typeMap = some "$this->faker->boolean()".data
    ∧ lookupStr "date".data typeMap = some "$this->faker->date()".data
    ∧ lookupStr "datetime".data typeMap = some "$this->faker->dateTime()".data
    ∧ lookupStr "timestamp".data typeMap = some "$this->faker->dateTime()".data
    ∧ lookupStr "decimal".data typeMap = some "$this->faker->randomFloat(2, 0, 1000)".data
    ∧ lookupStr "float".data typeMap = some "$this->faker->randomFloat(2, 0, 1000)".data
    ∧ lookupStr "json".data typeMap = some "$this->faker->json()".data
    ∧ lookupStr "uuid".data typeMap = some "$this->faker->uuid()".data
    ∧ getFakerMethodForColumn ⟨"age".data, "integer".data⟩ =
        JsVal.str "$this->faker->numberBetween(1, 1000)".data
    ∧ getFakerMethodForColumn ⟨"widget_count".data, "smallint".data⟩ =
        JsVal.str "fake()->text()".data := by
  refine ⟨?_, ?_, ?_, by decide⟩
  · intro v hv
    have hm := lookupStr_mem_values _ _ _ hv
    have hne := typeMap_values_isEmpty v hm
    simp [getFakerMethodForColumn, he, hn, hp, ha, typeMapGet, hv, jsOr, jsTruthy, hne]
  · intro hnone hcon hproto
    simp [getFakerMethodForColumn, he, hn, hp, ha, typeMapGet, hnone, hcon, hproto,
      jsOr, jsTruthy]
  · intro col' he' hn' hp' ha' hty
    simp [getFakerMethodForColumn, he, hn, hp, ha, he', hn', hp', ha', hty]

/-- C2 witness: the age/integer column, with all four heuristic hypotheses
and the table hit discharged concretely. -/
theorem claim_C2_witness :
    getFakerMethodForColumn ⟨"age".data, "integer".data⟩ =
      JsVal.str "$this->faker->numberBetween(1, 1000)".data :=
  (claim_C2 ⟨"age".data, "integer".data⟩ (by decide) (by decide) (by decide) (by decide)).1
    "$this->faker->numberBetween(1, 1000)".data (by decide)

/-- C9: the type lookup is exact string equality on the lowercased type, not
a substring or prefix match: a no-heuristic column whose lowercased type
contains some table key yet equals none of them gets the generic fallback
(such a type can hit no inherited prototype key either, since no table key
occurs inside `constructor` or `__proto__`), and in particular varchar(255)
and unsigned bigint fall through even though they contain table keys. -/
theorem claim_C9 (column : Column)
    (he : includes (toLowerStr column.name) "email".data = false)
    (hn : includes (toLowerStr column.name) "name".data = false)
    (hp : includes (toLowerStr column.name) "phone".data = false)
    (ha : includes (toLowerStr column.name) "address".data = false)
    (hk : ∀ q ∈ typeMap, toLowerStr column.type ≠ q.1)
    (hsub : ∃ q ∈ typeMap, includes (toLowerStr column.type) q.1 = true) :
    getFakerMethodForColumn column = JsVal.str "fake()->text()".data
    ∧ getFakerMethodForColumn ⟨"col".data, "varchar(255)".data⟩ =
        JsVal.str "fake()->text()".data
    ∧ includes (toLowerStr "varchar(255)".data) "varchar".data = true
    ∧ getFakerMethodForColumn ⟨"col".data, "unsigned bigint".data⟩ =
        JsVal.str "fake()->text()".data
    ∧ includes (toLowerStr "unsigned bigint".data) "bigint".data = true := by
  refine ⟨?_, by decide⟩
  have hnone := lookupStr_eq_none typeMap _ hk
  obtain ⟨q, hq, hqinc⟩ := hsub
  have hcon : toLowerStr column.type ≠ "constructor".data := by
    intro heq
    rw [heq] at hqinc
    have hall : ∀ r ∈ typeMap, includes "constructor".data r.1 = false := by decide
    rw [hall q hq] at hqinc
    exact Bool.false_ne_true hqinc
  have hproto : toLowerStr column.type ≠ "__proto__".data := by
    intro heq
    rw [heq] at hqinc
    have hall : ∀ r ∈ typeMap, includes "__proto__".data r.1 = false := by decide
    rw [hall q hq] at hqinc
    exact Bool.false_ne_true hqinc
  simp [getFakerMethodForColumn, he, hn, hp, ha, typeMapGet, hnone, hcon, hproto,
    jsOr, jsTruthy]

/-- C9 witness: the varchar(255) column, hypotheses discharged concretely. -/
theorem claim_C9_witness :
    getFakerMethodForColumn ⟨"col".data, "varchar(255)".data⟩ =
      JsVal.str "fake()->text()".data :=
  (claim_C9 ⟨"col".data, "varchar(255)".data⟩ (by decide) (by decide) (by decide) (by decide)
    (by decide) (by decide)).1

/-- C7 counterexample: at the lowercased type `constructor` (no heuristic
match) the classifier returns the inherited `Object` constructor — a
function, not a string — so "always produces a string" fails; `__proto__`
likewise yields the prototype object. -/
theorem claim_C7_counterexample :
    getFakerMethodForColumn ⟨"col".data, "constructor".data⟩ = JsVal.objectCtor
    ∧ jsIsString (getFakerMethodForColumn ⟨"col".data, "constructor".data⟩) = false
    ∧ getFakerMethodForColumn ⟨"col".data, "__proto__".data⟩ = JsVal.objectProto
    ∧ jsIsString (getFakerMethodForColumn ⟨"col".data, "__proto__".data⟩) = false := by
  decide

/-- C7 (amended): the classifier and renderer are total, pure, deterministic
functions with no error path: every classifier output is one of the fourteen
fixed expression strings or one of the two truthy values inherited from
`Object.prototype`; it is one of the fixed strings whenever the lowercased
type is neither `constructor` nor `__proto__`; and equal inputs give equal
outputs for both classifier and renderer. -/
theorem claim_C7 :
    (∀ column : Column,
        getFakerMethodForColumn column ∈ exprList.map JsVal.str
        ∨ getFakerMethodForColumn column = JsVal.objectCtor
        ∨ getFakerMethodForColumn column = JsVal.objectProto)
    ∧ (∀ column : Column, toLowerStr column.type ≠ "constructor".data →
        toLowerStr column.type ≠ "__proto__".data →
        getFakerMethodForColumn column ∈ exprList.map JsVal.str)
    ∧ (∀ c1 c2 : Column, c1.name = c2.name → c1.type = c2.type →
        getFakerMethodForColumn c1 = getFakerMethodForColumn c2)
    ∧ (∀ cs1 cs2 : List Column, cs1 = cs2 →
        generateColumnDefinitions cs1 = generateColumnDefinitions cs2) := by
  refine ⟨fakerMethod_classify, fakerMethod_str_of_ne, ?_, ?_⟩
  · intro c1 c2 hn ht
    have hc : c1 = c2 := by
      cases c1
      cases c2
      simp_all
    rw [hc]
  · intro cs1 cs2 h
    rw [h]

/-- C7 witness: concrete string-totality and determinism instances. -/
theorem claim_C7_witness :
    getFakerMethodForColumn ⟨"id".data, "uuid".data⟩ ∈ exprList.map JsVal.str
    ∧ getFakerMethodForColumn ⟨"a".data, "b".data⟩ =
        getFakerMethodForColumn ⟨"a".data, "b".data⟩ :=
  ⟨claim_C7.2.1 ⟨"id".data, "uuid".data⟩ (by decide) (by decide),
   claim_C7.2.2.1 ⟨"a".data, "b".data⟩ ⟨"a".data, "b".data⟩ rfl rfl⟩

/-- C3 counterexample: one column whose name contains a newline renders to a
text that spans two lines, so "N columns produce exactly N lines" fails as
stated at N = 1. -/
theorem claim_C3_counterexample :
    generateColumnDefinitions [⟨"a\nb".data, "varchar".data⟩] =
      "            'a\nb' => $this->faker->text(),".data
    ∧ (linesOf (generateColumnDefinitions [⟨"a\nb".data, "varchar".data⟩])).length = 2 := by
  decide

/-- C3 (amended): provided no column name contains a newline character,
rendering N columns produces exactly N lines, one per column in input order,
each line produced from its column by the classifier, and reordering the
input (for instance reversing it) reorders the output lines identically. -/
theorem claim_C3 (columns : List Column) (hnl : ∀ c ∈ columns, '\n' ∉ c.name) :
    linesOf (generateColumnDefinitions columns) = columns.map lineFor
    ∧ (linesOf (generateColumnDefinitions columns)).length = columns.length
    ∧ linesOf (generateColumnDefinitions columns.reverse) =
        (linesOf (generateColumnDefinitions columns)).reverse := by
  have hmain := linesOf_render columns hnl
  have hrev := linesOf_render columns.reverse
    (fun c hc => hnl c (List.mem_reverse.mp hc))
  refine ⟨hmain, ?_, ?_⟩
  · rw [hmain, List.length_map]
  · rw [hmain, hrev, List.map_reverse]

/-- C3 witness: a concrete two-column table. -/
theorem claim_C3_witness :
    linesOf (generateColumnDefinitions [⟨"id".data, "uuid".data⟩, ⟨"bio".data, "text".data⟩]) =
      List.map lineFor [⟨"id".data, "uuid".data⟩, ⟨"bio".data, "text".data⟩]
    ∧ (linesOf (generateColumnDefinitions
        [⟨"id".data, "uuid".data⟩, ⟨"bio".data, "text".data⟩])).length = 2
    ∧ linesOf (generateColumnDefinitions
        ([⟨"id".data, "uuid".data⟩, ⟨"bio".data, "text".data⟩] : List Column).reverse) =
      (linesOf (generateColumnDefinitions
        [⟨"id".data, "uuid".data⟩, ⟨"bio".data, "text".data⟩])).reverse :=
  claim_C3 [⟨"id".data, "uuid".data⟩, ⟨"bio".data, "text".data⟩] (by decide)

/-- C6 counterexample: the rendered block for one plain column carries the
code's 12-space indentation (and no trailing newline), so it does not match
the spec grammar as written, although the unindented line itself would. -/
theorem claim_C6_counterexample :
    generateColumnDefinitions [⟨"a".data, "varchar".data⟩] =
      "            'a' => $this->faker->text(),".data
    ∧ specGrammar (generateColumnDefinitions [⟨"a".data, "varchar".data⟩]) = false
    ∧ specGrammar "'a' => $this->faker->text(),\n".data = true := by
  decide

/-- C6 (amended): for newline-free column names, every line of the rendered
block is the 12-space indentation, the quoted column name, the arrow, the
text coercion of the classifier value — one of the fixed expressions, or for
lowercased types `constructor`/`__proto__` without a name match the coerced
inherited prototype value — and a trailing comma. -/
theorem claim_C6 (columns : List Column) (hnl : ∀ c ∈ columns, '\n' ∉ c.name) :
    ∀ line ∈ linesOf (generateColumnDefinitions columns),
      ∃ c ∈ columns,
        line = "            '".data ++ c.name ++ "' => ".data ++
          jsToString (getFakerMethodForColumn c) ++ ",".data
        ∧ jsToString (getFakerMethodForColumn c) ∈ renderedExprList := by
  intro line hline
  rw [linesOf_render columns hnl] at hline
  obtain ⟨c, hc, rfl⟩ := List.mem_map.mp hline
  exact ⟨c, hc, rfl, fakerMethod_rendered_mem c⟩

/-- C6 witness: the single line of a concrete one-column render. -/
theorem claim_C6_witness :
    ∃ c ∈ [Column.mk "a".data "varchar".data],
      "            'a' => $this->faker->text(),".data =
        "            '".data ++ c.name ++ "' => ".data ++
          jsToString (getFakerMethodForColumn c) ++ ",".data
      ∧ jsToString (getFakerMethodForColumn c) ∈ renderedExprList :=
  claim_C6 [⟨"a".data, "varchar".data⟩] (by decide)
    "            'a' => $this->faker->text(),".data (by decide)

/-- C8 counterexample: the rendered line for the email/varchar column is not
the bare text claimed — it carries the code's 12-space indentation. -/
theorem claim_C8_counterexample :
    generateColumnDefinitions [⟨"email".data, "varchar".data⟩] ≠
      "'email' => fake()->safeEmail(),".data := by
  decide

/-- C8 (amended): rendering the single column email/varchar produces the
claimed line content preceded by the code's 12-space indentation. -/
theorem claim_C8 :
    generateColumnDefinitions [⟨"email".data, "varchar".data⟩] =
      "            'email' => fake()->safeEmail(),".data := by
  decide

/-- C4 counterexample: a definitions block containing the JS replacement
escape sequence dollar-ampersand is not spliced verbatim — the engine expands
it to the whole matched span — so "replaces exactly that one span with
`return [\n<definitions>\n        ];`" fails for that definitions block. -/
theorem claim_C4_counterexample :
    updateFactoryContent "return [x];".data "$&".data =
      "return [\nreturn [x];\n        ];".data
    ∧ updateFactoryContent "return [x];".data "$&".data ≠
      "return [\n$&\n        ];".data := by
  decide

/-- C4 (amended): for every input text containing a `return [ ... ];` span
(written as the text before the first such occurrence, the shortest body, and
the rest) and every definitions block in which each dollar sign is followed by
an inert character or ends the block, the splice replaces exactly that one
span with the template and preserves the text before and after it unchanged,
later occurrences included. -/
theorem claim_C4 (pre body after defs : List Char)
    (hfirst : includes (pre ++ "return ".data) returnPat = false)
    (hlazy : includes (body ++ "]".data) "];".data = false)
    (hdollar : dollarSafe defs = true) :
    updateFactoryContent (pre ++ returnPat ++ body ++ "];".data ++ after) defs =
      pre ++ "return [\n".data ++ defs ++ "\n        ];".data ++ after := by
  have h := splice_eq pre body after defs hfirst hlazy hdollar
  simpa [List.append_assoc] using h

/-- C4 witness: a concrete splice around a one-character body, with a later
second occurrence of the pattern left untouched in the preserved tail. -/
theorem claim_C4_witness :
    updateFactoryContent
        ("x ".data ++ returnPat ++ "0".data ++ "];".data ++ " return [y]; z".data)
        "A".data =
      "x ".data ++ "return [\n".data ++ "A".data ++ "\n        ];".data ++
        " return [y]; z".data :=
  claim_C4 "x ".data "0".data " return [y]; z".data "A".data
    (by decide) (by decide) (by decide)

/-- C5: for every input text with no `return [ ... ];` pattern — no
decomposition into text, `return [`, body, `];`, text — the splice performs no
replacement and returns the original text unchanged, byte for byte. -/
theorem claim_C5 (content defs : List Char)
    (h : ¬ ∃ x y z : List Char, content = x ++ returnPat ++ y ++ "];".data ++ z) :
    updateFactoryContent content defs = content := by
  cases hm : findMatch content with
  | none =>
    unfold updateFactoryContent
    rw [hm]
  | some r =>
    obtain ⟨p, b, a⟩ := r
    exact absurd
      ⟨p, b, a, by simpa [List.append_assoc] using findMatch_sound content p b a hm⟩ h

/-- C5 witness: a short text that cannot contain the pattern, shown by a
length count. -/
theorem claim_C5_witness : updateFactoryContent "hello".data "defs".data = "hello".data :=
  claim_C5 "hello".data "defs".data (by
    rintro ⟨x, y, z, hxyz⟩
    have hl := congrArg List.length hxyz
    simp only [List.length_append] at hl
    rw [show ("hello".data).length = 5 from rfl] at hl
    rw [show returnPat.length = 8 from rfl] at hl
    rw [show ("];".data).length = 2 from rfl] at hl
    omega)

/-- C10: rendering the empty column sequence gives the empty string, and
splicing that empty block into a text at its first `return [ ... ];`
occurrence leaves `return [`, a blank line, then the 8-space-indented `];`,
with the surrounding text unchanged. -/
theorem claim_C10 (pre body after : List Char)
    (hfirst : includes (pre ++ "return ".data) returnPat = false)
    (hlazy : includes (body ++ "]".data) "];".data = false) :
    generateColumnDefinitions [] = []
    ∧ updateFactoryContent (pre ++ returnPat ++ body ++ "];".data ++ after)
        (generateColumnDefinitions []) =
      pre ++ "return [\n\n        ];".data ++ after := by
  refine ⟨rfl, ?_⟩
  have h := splice_eq pre body after [] hfirst hlazy (by decide)
  simpa [generateColumnDefinitions, joinNl, List.append_assoc] using h

/-- C10 witness: a concrete empty-block splice. -/
theorem claim_C10_witness :
    generateColumnDefinitions [] = []
    ∧ updateFactoryContent ("x ".data ++ returnPat ++ "0".data ++ "];".data ++ " z".data)
        (generateColumnDefinitions []) =
      "x ".data ++ "return [\n\n        ];".data ++ " z".data :=
  claim_C10 "x ".data "0".data " z".data (by decide) (by decide)
